import Mathlib

/-!
Verification development for the sshauth key-aggregation pipeline.

The program lists the objects of an S3 bucket under `join(keyArg, user)`,
launches one fetch goroutine per listed object, and copies each record
received on a shared channel to standard output, page by page.  The
embedding below models byte strings as `String` (character sequences),
the store as a function from bucket and key to a fetch outcome, a
completion schedule of a page's concurrent fetches as the order in which
the records arrive on the channel, and the output sink as a function
giving the outcome of each successive write.
-/

namespace SSHAuth

/-! ### Go standard library `path`: Clean, Join, Base (over `List Char`) -/

/-- Split a character list on `'/'`; mirrors the component view used by Go
`path.Clean`.  Always returns at least one (possibly empty) component. -/
def splitSlash : List Char → List (List Char)
  | [] => [[]]
  | c :: cs =>
    match splitSlash cs with
    | [] => [[c]]
    | h :: t => if c = '/' then [] :: h :: t else (c :: h) :: t

/-- Join components with `'/'`; inverse of `splitSlash`. -/
def joinSlash : List (List Char) → List Char
  | [] => []
  | [x] => x
  | x :: xs => x ++ '/' :: joinSlash xs

/-- Core of Go `path.Clean`: process components left to right, dropping
empty and `"."` components and resolving `".."` against the accumulator
exactly as Go's lazybuf algorithm does (pop a regular component; keep a
leading `".."` when the path is not rooted; drop `".."` at the root). -/
def cleanCore (rooted : Bool) : List (List Char) → List (List Char) → List (List Char)
  | [], acc => acc.reverse
  | c :: cs, acc =>
    if c = [] ∨ c = ['.'] then cleanCore rooted cs acc
    else if c = ['.', '.'] then
      match acc with
      | [] => if rooted then cleanCore rooted cs [] else cleanCore rooted cs [['.', '.']]
      | a :: as =>
        if a = ['.', '.'] ∧ rooted = false then cleanCore rooted cs (['.', '.'] :: a :: as)
        else cleanCore rooted cs as
    else cleanCore rooted cs (c :: acc)

/-- Go `path.Clean` on a character list: the path is rooted when it
starts with `'/'`; its components are cleaned, and the result is `"."`
(or `"/"` when rooted) if nothing remains. -/
def cleanChars (l : List Char) : List Char :=
  if l = [] then ['.']
  else if cleanCore (l.head? == some '/') (splitSlash l) [] = [] then
    (if l.head? == some '/' then ['/'] else ['.'])
  else
    (if l.head? == some '/' then ['/'] else []) ++
      joinSlash (cleanCore (l.head? == some '/') (splitSlash l) [])

/-- Go `path.Clean`. -/
def goPathClean (s : String) : String := ⟨cleanChars s.data⟩

/-- Go `path.Join` restricted to two elements, as called by the program:
empty elements are skipped, the rest are joined with `'/'` and cleaned. -/
def goPathJoin (p u : String) : String :=
  if p = "" then (if u = "" then "" else goPathClean u)
  else goPathClean ⟨p.data ++ '/' :: u.data⟩

/-- Remove all trailing `'/'` characters. -/
def stripTrailing (l : List Char) : List Char :=
  (l.reverse.dropWhile (· == '/')).reverse

/-- Go `path.Base`: strip trailing slashes, then take the suffix after the
last slash; `""` gives `"."` and an all-slash path gives `"/"`. -/
def goPathBase (s : String) : String :=
  if s = "" then "."
  else
    let l := stripTrailing s.data
    if l = [] then "/"
    else ⟨(l.reverse.takeWhile (· != '/')).reverse⟩

/-! ### Data model -/

/-- Outcome of `svc.GetObject` followed by `ioutil.ReadAll(resp.Body)`:
either a store error (`awserr.Error` or any other error value from the
get), or success carrying the bytes `ReadAll` returned together with a
flag recording whether reading the body stream failed partway. -/
inductive FetchResult
  | storeError (code msg : String)
  | transportError (msg : String)
  | success (bytes : String) (bodyReadFailed : Bool)
deriving DecidableEq

/-- The object store: bucket and key determine the fetch outcome. -/
abbrev Store := String → String → FetchResult

/-- The configuration surface the core reads: the `-authlog` flag. -/
structure Config where
  authlog : String
deriving DecidableEq

/-- `logheader = "command=\"%s %s %s %s\" "` formatted with the wrapper
path, the key's base name, the bucket and the key. -/
def logHeader (alog base bucket key : String) : String :=
  "command=\"" ++ alog ++ " " ++ base ++ " " ++ bucket ++ " " ++ key ++ "\" "

/-- `bytes.HasSuffix(body, []byte("\n"))` followed by the conditional
append: the body is returned unchanged when its last byte is a newline,
otherwise a single newline is appended. -/
def ensureNewline (b : String) : String :=
  if b.data.getLast? = some '\n' then b else b ++ "\n"

/-- Drop the first `n` characters of a string; models `bytes.Buffer.Read`
consuming `n` bytes from the front of the buffer. -/
def dropChars (s : String) (n : Nat) : String := ⟨s.data.drop n⟩

/-- `readAuthorizedKey(bucket, key, authorizedKeys)`: the list of records
this call sends on the channel, one entry per channel send, in order.
A store error sends one empty record and returns.  On success the body is
newline-normalized; with `-authlog` set the code builds the header buffer
and calls `outbuf.Read(body)`, which drains `len(body)` bytes from the
front of the header buffer (it does not append the body), and sends what
remains in the buffer; otherwise it sends the normalized body. -/
def readAuthorizedKey (cfg : Config) (store : Store) (bucket key : String) : List String :=
  match store bucket key with
  | FetchResult.storeError _ _ => [""]
  | FetchResult.transportError _ => [""]
  | FetchResult.success bytes _ =>
    let body := ensureNewline bytes
    if cfg.authlog ≠ "" then
      [dropChars (logHeader cfg.authlog (goPathBase key) bucket key) body.length]
    else
      [body]

/-- The single record `readAuthorizedKey` sends for one object. -/
def recordOf (cfg : Config) (store : Store) (bucket key : String) : String :=
  (readAuthorizedKey cfg store bucket key).headD ""

/-! ### Aggregator: launch loop, channel schedules, drain loop, pagination -/

/-- What the launch loop does at one listed object: enqueue an empty
record directly when the key equals the listing path (directory marker),
otherwise launch a fetch goroutine for the key. -/
inductive LaunchAction
  | markerSend
  | fetch (key : String)
deriving DecidableEq

/-- The launch loop over one page's object keys. -/
def launchPage (akPath : String) : List String → List LaunchAction
  | [] => []
  | k :: ks => (if k = akPath then LaunchAction.markerSend else LaunchAction.fetch k) :: launchPage akPath ks

/-- Keys for which a fetch goroutine is launched. -/
def fetchedKeys : List LaunchAction → List String
  | [] => []
  | LaunchAction.markerSend :: r => fetchedKeys r
  | LaunchAction.fetch k :: r => k :: fetchedKeys r

/-- The record an action puts on the channel. -/
def actionRecord (cfg : Config) (store : Store) (bucket : String) : LaunchAction → String
  | LaunchAction.markerSend => ""
  | LaunchAction.fetch k => recordOf cfg store bucket k

/-- The records of one page, indexed in listing order. -/
def pageRecords (cfg : Config) (store : Store) (bucket akPath : String) (page : List String) : List String :=
  (launchPage akPath page).map (actionRecord cfg store bucket)

/-- The order in which the page's records arrive on the channel under a
completion schedule `sched` (a permutation of the listing positions). -/
def scheduleRecords (recs : List String) (sched : List Nat) : List String :=
  sched.map (fun i => recs.getD i "")

/-- Outcome of one `io.Copy(os.Stdout, <-authorizedKeys)` call. -/
inductive WriteResult
  | ok
  | brokenPipe
  | otherError
deriving DecidableEq

/-- The output sink: outcome of the i-th write attempt of the run. -/
abbrev Sink := Nat → WriteResult

/-- A sink on which every write succeeds. -/
def allOk : Sink := fun _ => WriteResult.ok

/-- A sink whose write attempt `k` fails with broken pipe and all other
writes succeed. -/
def sinkAt (k : Nat) : Sink := fun i => if i = k then WriteResult.brokenPipe else WriteResult.ok

/-- The drain loop of one page: receive one record per listed object and
copy it to the sink.  Returns the records actually written, the running
write-attempt (receive) counter, and whether the loop completed without a
broken pipe (`syscall.EPIPE` makes the callback return `false`; any other
write error is logged and the loop continues). -/
def drainPage (sink : Sink) : List String → Nat → List String × Nat × Bool
  | [], idx => ([], idx, true)
  | r :: rest, idx =>
    match sink idx with
    | WriteResult.brokenPipe => ([], idx + 1, false)
    | WriteResult.otherError => drainPage sink rest (idx + 1)
    | WriteResult.ok =>
      match drainPage sink rest (idx + 1) with
      | (w, j, c) => (r :: w, j, c)

/-- `svc.ListObjectsPages` result: the pages successfully delivered to the
callback, and the listing error, if any, that would surface after them. -/
structure StoreListError where
  isAws : Bool
  code : String
  msg : String
deriving DecidableEq

structure Listing where
  pages : List (List String)
  err : Option StoreListError

/-- The page loop of `ListObjectsPages`: for each delivered page run the
launch loop, then the drain loop, and continue while the callback returns
`true` (`!lastPage`, or `false` after a broken pipe).  Returns the written
records, the number of pages processed, the total receive count, and the
last callback return value (`true` means the SDK would request another
page, where a pending listing error would then surface). -/
def runPagesAux (cfg : Config) (store : Store) (bucket akPath : String) (sink : Sink) (hasErr : Bool) :
    List (List String) → List (List Nat) → Nat → List String × Nat × Nat × Bool
  | [], _, idx => ([], 0, idx, true)
  | p :: ps, scheds, idx =>
    let recs := scheduleRecords (pageRecords cfg store bucket akPath p) (scheds.headD (List.range p.length))
    match drainPage sink recs idx with
    | (w, idx2, ok) =>
      let lastPage := ps.isEmpty && !hasErr
      let ret := ok && !lastPage
      if ret = true ∧ ps ≠ [] then
        match runPagesAux cfg store bucket akPath sink hasErr ps scheds.tail idx2 with
        | (w2, n2, idx3, c2) => (w ++ w2, n2 + 1, idx3, c2)
      else (w, 1, idx2, ret)

/-- Result of one `printAuthorizedKeys` invocation. -/
structure RunResult where
  written : List String
  pagesProcessed : Nat
  receives : Nat
  fatal : Option StoreListError
deriving DecidableEq

/-- `log.Fatalf` exits with status 1; otherwise the run exits 0. -/
def RunResult.exitCode (r : RunResult) : Nat := if r.fatal.isSome then 1 else 0

/-- The byte stream written to standard output. -/
def bytesOf (l : List String) : List Char := (l.map String.data).flatten

def RunResult.output (r : RunResult) : List Char := bytesOf r.written

/-- The listing path `path.Join(authorizedKeysPath, user)` requested from
the store. -/
def listingPath (keyArg user : String) : String := goPathJoin keyArg user

/-- `printAuthorizedKeys(bucket, authorizedKeysPath, user)` under a given
store, sink, listing and per-page completion schedules. -/
def printAuthorizedKeys (cfg : Config) (store : Store) (sink : Sink)
    (listing : Listing) (scheds : List (List Nat)) (bucket keyArg user : String) : RunResult :=
  let akPath := listingPath keyArg user
  match runPagesAux cfg store bucket akPath sink listing.err.isSome listing.pages scheds 0 with
  | (w, n, idx, cont) =>
    { written := w, pagesProcessed := n, receives := idx,
      fatal := if cont then listing.err else none }

/-! ### Spec-side definitions (from the specification's words, for
refinement comparison) -/

/-- Modelled from the spec: "normalization collapses trailing slashes of
p to exactly one separator" — drop all trailing slashes of `p`. -/
def specNormalize (p : String) : String := ⟨stripTrailing p.data⟩

/-- Modelled from the spec: the claimed listing path
`normalize(p) + "/" + u`. -/
def specListingPath (p u : String) : String := specNormalize p ++ "/" ++ u

/-- A path component free of the characters Go `path.Clean` rewrites:
nonempty and neither `"."` nor `".."`. -/
def goodComp (c : List Char) : Prop := c ≠ [] ∧ c ≠ ['.'] ∧ c ≠ ['.', '.']

instance (c : List Char) : Decidable (goodComp c) := by
  unfold goodComp; infer_instance

/-- The records that arrive on the channel over the whole run, page by
page, under the given per-page completion schedules. -/
def arrivalsAll (cfg : Config) (store : Store) (bucket akPath : String) :
    List (List String) → List (List Nat) → List String
  | [], _ => []
  | p :: ps, scheds =>
    scheduleRecords (pageRecords cfg store bucket akPath p) (scheds.headD (List.range p.length))
      ++ arrivalsAll cfg store bucket akPath ps scheds.tail

/-- Per-page channel arrival counts. -/
def arrivalLens : List (List String) → List (List Nat) → List Nat
  | [], _ => []
  | p :: ps, scheds =>
    (scheds.headD (List.range p.length)).length :: arrivalLens ps scheds.tail

/-- Index of the page that contains the k-th arrival overall. -/
def pageIndexAux : List Nat → Nat → Nat
  | [], _ => 0
  | n :: ns, k => if k < n then 0 else pageIndexAux ns (k - n) + 1

/-! ### Concrete stores and listings used by counterexamples and witnesses -/

/-- Store for the two-object page of spec §8: `keys/alice/k1` has body
`"AAA"` (no trailing newline), every other key has body `"BBB\n"`. -/
def cxStore : Store := fun _ k =>
  if k = "keys/alice/k1" then FetchResult.success "AAA" false
  else FetchResult.success "BBB\n" false

/-- Store whose every fetch fails with a service error. -/
def errStore : Store := fun _ _ => FetchResult.storeError "NoSuchKey" "key does not exist"

/-- Store whose every get succeeds but whose body read fails after the
bytes `"par"` were read. -/
def partialStore : Store := fun _ _ => FetchResult.success "par" true


/-! ### Basic lemmas about the fetcher and the launch loop -/

theorem data_append (a b : String) : (a ++ b).data = a.data ++ b.data := rfl

theorem readAuthorizedKey_length (cfg : Config) (store : Store) (bucket key : String) :
    (readAuthorizedKey cfg store bucket key).length = 1 := by
  unfold readAuthorizedKey
  cases store bucket key with
  | storeError code msg => rfl
  | transportError msg => rfl
  | success bytes e =>
    dsimp only
    split <;> rfl

theorem readAuthorizedKey_eq_recordOf (cfg : Config) (store : Store) (bucket key : String) :
    readAuthorizedKey cfg store bucket key = [recordOf cfg store bucket key] := by
  unfold recordOf readAuthorizedKey
  cases store bucket key with
  | storeError code msg => rfl
  | transportError msg => rfl
  | success bytes e =>
    dsimp only
    split <;> rfl

theorem launchPage_length (akPath : String) (page : List String) :
    (launchPage akPath page).length = page.length := by
  induction page with
  | nil => rfl
  | cons k ks ih => simp [launchPage, ih]

theorem pageRecords_length (cfg : Config) (store : Store) (bucket akPath : String)
    (page : List String) :
    (pageRecords cfg store bucket akPath page).length = page.length := by
  simp [pageRecords, launchPage_length]

theorem fetchedKeys_launchPage (akPath : String) (page : List String) :
    fetchedKeys (launchPage akPath page) = page.filter (fun k => k ≠ akPath) := by
  induction page with
  | nil => rfl
  | cons k ks ih =>
    by_cases h : k = akPath <;>
      simp [launchPage, fetchedKeys, h, ih, List.filter_cons]

theorem pageRecords_eq_map (cfg : Config) (store : Store) (bucket akPath : String)
    (page : List String) :
    pageRecords cfg store bucket akPath page =
      page.map (fun k => if k = akPath then "" else recordOf cfg store bucket k) := by
  induction page with
  | nil => rfl
  | cons k ks ih =>
    by_cases h : k = akPath <;>
      simp only [pageRecords, launchPage, List.map_cons, List.map] at ih ⊢ <;>
      simp [actionRecord, h, ih]

theorem bytesOf_cons (s : String) (l : List String) :
    bytesOf (s :: l) = s.data ++ bytesOf l := by
  simp [bytesOf]

theorem bytesOf_pageRecords (cfg : Config) (store : Store) (bucket akPath : String)
    (page : List String) :
    bytesOf (pageRecords cfg store bucket akPath page) =
      bytesOf ((page.filter (fun k => k ≠ akPath)).map (recordOf cfg store bucket)) := by
  induction page with
  | nil => rfl
  | cons k ks ih =>
    by_cases h : k = akPath
    · simp only [pageRecords, launchPage, if_pos h, List.map_cons] at ih ⊢
      simp only [actionRecord, bytesOf_cons]
      simpa [List.filter_cons, h] using ih
    · simp only [pageRecords, launchPage, if_neg h, List.map_cons] at ih ⊢
      simp only [actionRecord, bytesOf_cons]
      simp [List.filter_cons, h, bytesOf_cons, ih]

/-! ### Lemmas about the drain loop and the page loop -/

theorem drainPage_allOk (recs : List String) : ∀ idx : Nat,
    drainPage allOk recs idx = (recs, idx + recs.length, true) := by
  induction recs with
  | nil => intro idx; simp [drainPage]
  | cons r rest ih =>
    intro idx
    simp only [drainPage, allOk, ih (idx + 1), List.length_cons]
    refine Prod.ext rfl (Prod.ext ?_ rfl)
    simp
    omega

theorem drainPage_noPipe (sink : Sink) (hsink : ∀ i, sink i ≠ WriteResult.brokenPipe)
    (recs : List String) : ∀ idx : Nat,
    (drainPage sink recs idx).2.1 = idx + recs.length ∧
    (drainPage sink recs idx).2.2 = true := by
  induction recs with
  | nil => intro idx; simp [drainPage]
  | cons r rest ih =>
    intro idx
    obtain ⟨ih1, ih2⟩ := ih (idx + 1)
    simp only [drainPage]
    cases hs : sink idx with
    | brokenPipe => exact absurd hs (hsink idx)
    | otherError =>
      constructor
      · rw [ih1, List.length_cons]; omega
      · exact ih2
    | ok =>
      rcases heq : drainPage sink rest (idx + 1) with ⟨w, j, c⟩
      rw [heq] at ih1 ih2
      simp only at ih1 ih2
      constructor
      · simp only [ih1, List.length_cons]; omega
      · exact ih2

theorem drainPage_sinkAt (k : Nat) (recs : List String) : ∀ idx : Nat, idx ≤ k →
    drainPage (sinkAt k) recs idx =
      if k < idx + recs.length then (recs.take (k - idx), k + 1, false)
      else (recs, idx + recs.length, true) := by
  induction recs with
  | nil =>
    intro idx h
    rw [if_neg (by simp; omega)]
    simp [drainPage]
  | cons r rest ih =>
    intro idx h
    by_cases hik : idx = k
    · subst hik
      rw [if_pos (by simp)]
      simp [drainPage, sinkAt, Nat.sub_self]
    · have hlt : idx + 1 ≤ k := by omega
      have hne : ¬ idx = k := hik
      simp only [drainPage, sinkAt, if_neg hne]
      rw [ih (idx + 1) hlt]
      by_cases hc : k < idx + 1 + rest.length
      · rw [if_pos hc, if_pos (by simp; omega)]
        have htake : (r :: rest).take (k - idx) = r :: rest.take (k - (idx + 1)) := by
          have : k - idx = (k - (idx + 1)) + 1 := by omega
          rw [this, List.take_succ_cons]
        rw [htake]
      · rw [if_neg hc, if_neg (by simp; omega)]
        refine Prod.ext rfl (Prod.ext ?_ rfl)
        simp
        omega

theorem runPagesAux_allOk (cfg : Config) (store : Store) (bucket akPath : String)
    (hasErr : Bool) (pages : List (List String)) :
    ∀ (scheds : List (List Nat)) (idx : Nat),
      runPagesAux cfg store bucket akPath allOk hasErr pages scheds idx =
        (arrivalsAll cfg store bucket akPath pages scheds, pages.length,
         idx + (arrivalsAll cfg store bucket akPath pages scheds).length,
         pages.isEmpty || hasErr) := by
  induction pages with
  | nil => intro scheds idx; simp [runPagesAux, arrivalsAll]
  | cons p ps ih =>
    intro scheds idx
    simp only [runPagesAux, drainPage_allOk, arrivalsAll]
    cases ps with
    | nil =>
      rw [if_neg (by simp)]
      cases hasErr <;> simp [arrivalsAll]
    | cons q qs =>
      rw [if_pos (by simp)]
      rw [ih scheds.tail]
      simp only [List.length_append, List.length_cons, List.isEmpty_cons]
      refine Prod.ext rfl (Prod.ext rfl (Prod.ext ?_ rfl))
      simp
      omega

theorem runPagesAux_sinkAt (cfg : Config) (store : Store) (bucket akPath : String)
    (hasErr : Bool) (pages : List (List String)) :
    ∀ (scheds : List (List Nat)) (idx k : Nat), idx ≤ k →
      k < idx + (arrivalsAll cfg store bucket akPath pages scheds).length →
      runPagesAux cfg store bucket akPath (sinkAt k) hasErr pages scheds idx =
        ((arrivalsAll cfg store bucket akPath pages scheds).take (k - idx),
         pageIndexAux (arrivalLens pages scheds) (k - idx) + 1,
         k + 1, false) := by
  induction pages with
  | nil =>
    intro scheds idx k h1 h2
    simp [arrivalsAll] at h2
    omega
  | cons p ps ih =>
    intro scheds idx k h1 h2
    simp only [arrivalsAll, arrivalLens, List.length_append] at h2 ⊢
    have hm : (scheduleRecords (pageRecords cfg store bucket akPath p)
        (scheds.headD (List.range p.length))).length =
        (scheds.headD (List.range p.length)).length := by
      simp [scheduleRecords]
    simp only [runPagesAux, drainPage_sinkAt k _ idx h1]
    by_cases hc : k < idx + (scheduleRecords (pageRecords cfg store bucket akPath p)
        (scheds.headD (List.range p.length))).length
    · rw [if_pos hc]
      have h0 : k - idx - (scheduleRecords (pageRecords cfg store bucket akPath p)
          (scheds.headD (List.range p.length))).length = 0 := by omega
      rw [List.take_append_eq_append_take, h0, List.take_zero, List.append_nil]
      simp only [pageIndexAux]
      rw [if_pos (by omega : k - idx < (scheds.headD (List.range p.length)).length)]
      simp
    · rw [if_neg hc]
      cases ps with
      | nil =>
        exfalso
        simp only [arrivalsAll, List.length_nil] at h2
        omega
      | cons q qs =>
        have hcond : ((true && !((q :: qs).isEmpty && !hasErr)) = true ∧ q :: qs ≠ []) := by
          simp
        rw [if_pos hcond]
        rw [ih scheds.tail
          (idx + (scheduleRecords (pageRecords cfg store bucket akPath p)
            (scheds.headD (List.range p.length))).length) k (by omega) (by omega)]
        rw [List.take_append_eq_append_take,
          List.take_of_length_le (by omega :
            (scheduleRecords (pageRecords cfg store bucket akPath p)
              (scheds.headD (List.range p.length))).length ≤ k - idx)]
        simp only [pageIndexAux]
        rw [if_neg (by omega : ¬ k - idx < (scheds.headD (List.range p.length)).length)]
        have e1 : k - idx - (scheduleRecords (pageRecords cfg store bucket akPath p)
            (scheds.headD (List.range p.length))).length =
            k - (idx + (scheduleRecords (pageRecords cfg store bucket akPath p)
              (scheds.headD (List.range p.length))).length) := by omega
        have e2 : k - idx - (scheds.headD (List.range p.length)).length =
            k - (idx + (scheduleRecords (pageRecords cfg store bucket akPath p)
              (scheds.headD (List.range p.length))).length) := by omega
        rw [e1, e2]

theorem map_getD_range {α : Type} (l : List α) (d : α) :
    (List.range l.length).map (fun i => l.getD i d) = l := by
  induction l with
  | nil => rfl
  | cons a t ih =>
    rw [List.length_cons, List.range_succ_eq_map, List.map_cons, List.map_map]
    simp only [List.getD_cons_zero, Function.comp_def, List.getD_cons_succ]
    rw [ih]

/-! ### Claims -/

/-- C1, counterexample: the output of `printAuthorizedKeys` is NOT
identical across two completion schedules of the same page.  On the page
`[keys/alice/k1, keys/alice/k2]` with bodies `"AAA"` and `"BBB\n"`, the
schedule in which `k1`'s fetch completes first yields the byte stream
`"AAA\nBBB\n"`, while the schedule in which `k2`'s completes first yields
`"BBB\nAAA\n"`. -/
theorem C1_counterexample :
    (printAuthorizedKeys ⟨""⟩ cxStore allOk ⟨[["keys/alice/k1", "keys/alice/k2"]], none⟩
      [[0, 1]] "b" "keys" "alice").output ≠
    (printAuthorizedKeys ⟨""⟩ cxStore allOk ⟨[["keys/alice/k1", "keys/alice/k2"]], none⟩
      [[1, 0]] "b" "keys" "alice").output := by
  decide

/-- C1, amended: across any completion schedule of a page (a permutation
of the listing positions), the multiset of records put on the channel —
and hence drained and written — equals the multiset of the page's records
in listing order: every listed object's record appears exactly once.  The
within-page byte order, however, follows fetch-completion order, not
listing order. -/
theorem C1_order_amended (cfg : Config) (store : Store) (bucket akPath : String)
    (page : List String) (sched : List Nat)
    (h : sched.Perm (List.range page.length)) :
    (scheduleRecords (pageRecords cfg store bucket akPath page) sched).Perm
      (pageRecords cfg store bucket akPath page) := by
  have hlen : page.length = (pageRecords cfg store bucket akPath page).length :=
    (pageRecords_length cfg store bucket akPath page).symm
  have h2 := h.map (fun i => (pageRecords cfg store bucket akPath page).getD i "")
  rw [hlen, map_getD_range] at h2
  exact h2

theorem C1_order_amended_witness :
    ([1, 0] : List Nat).Perm
      (List.range (["keys/alice/k1", "keys/alice/k2"] : List String).length) ∧
    (scheduleRecords
      (pageRecords ⟨""⟩ cxStore "b" "keys/alice" ["keys/alice/k1", "keys/alice/k2"])
      [1, 0]).Perm
      (pageRecords ⟨""⟩ cxStore "b" "keys/alice" ["keys/alice/k1", "keys/alice/k2"]) :=
  ⟨by decide,
   C1_order_amended ⟨""⟩ cxStore "b" "keys/alice" ["keys/alice/k1", "keys/alice/k2"]
     [1, 0] (by decide)⟩

/-- C2: with `authlog=/usr/local/bin/sshlogger.sh`, bucket `b`, key
`keys/alice/k1` and body `"ssh-rsa AAA"`, the record the code actually
sends is NOT the documented
`command="/usr/local/bin/sshlogger.sh k1 b keys/alice/k1" ssh-rsa AAA\n`:
`outbuf.Read(body)` drains `len(body)` bytes from the front of the header
buffer instead of appending the body, so the code emits the remainder of
the header, `r/local/bin/sshlogger.sh k1 b keys/alice/k1" `. -/
theorem C2_authlog_record :
    readAuthorizedKey ⟨"/usr/local/bin/sshlogger.sh"⟩
        (fun _ _ => FetchResult.success "ssh-rsa AAA" false) "b" "keys/alice/k1" =
      ["r/local/bin/sshlogger.sh k1 b keys/alice/k1\" "] ∧
    readAuthorizedKey ⟨"/usr/local/bin/sshlogger.sh"⟩
        (fun _ _ => FetchResult.success "ssh-rsa AAA" false) "b" "keys/alice/k1" ≠
      ["command=\"/usr/local/bin/sshlogger.sh k1 b keys/alice/k1\" ssh-rsa AAA\n"] := by
  constructor
  · decide
  · decide

/-- C3: if the write of overall position k fails with the broken-pipe
condition (and k is reached), the run stops immediately: only the k
records before it are written, the receive after the failed write is the
last one, no page beyond the one containing position k is processed, and
the run exits with status zero. -/
theorem C3_broken_pipe (cfg : Config) (store : Store) (bucket keyArg user : String)
    (pages : List (List String)) (err : Option StoreListError)
    (scheds : List (List Nat)) (k : Nat)
    (hk : k < (arrivalsAll cfg store bucket (listingPath keyArg user) pages scheds).length) :
    (printAuthorizedKeys cfg store (sinkAt k) ⟨pages, err⟩ scheds bucket keyArg user).exitCode
      = 0 ∧
    (printAuthorizedKeys cfg store (sinkAt k) ⟨pages, err⟩ scheds bucket keyArg user).written
      = (arrivalsAll cfg store bucket (listingPath keyArg user) pages scheds).take k ∧
    (printAuthorizedKeys cfg store (sinkAt k) ⟨pages, err⟩ scheds bucket keyArg user).receives
      = k + 1 ∧
    (printAuthorizedKeys cfg store (sinkAt k) ⟨pages, err⟩ scheds bucket keyArg user).pagesProcessed
      = pageIndexAux (arrivalLens pages scheds) k + 1 := by
  simp only [printAuthorizedKeys]
  rw [runPagesAux_sinkAt cfg store bucket (listingPath keyArg user) _ pages scheds 0 k
    (Nat.zero_le k) (by simpa using hk)]
  simp [RunResult.exitCode]

theorem C3_broken_pipe_witness :
    0 < (arrivalsAll ⟨""⟩ cxStore "b" (listingPath "keys" "alice")
      [["keys/alice/k1"], ["keys/alice/k2"]] [[0], [0]]).length ∧
    (printAuthorizedKeys ⟨""⟩ cxStore (sinkAt 0)
      ⟨[["keys/alice/k1"], ["keys/alice/k2"]], none⟩ [[0], [0]] "b" "keys" "alice").exitCode
      = 0 ∧
    (printAuthorizedKeys ⟨""⟩ cxStore (sinkAt 0)
      ⟨[["keys/alice/k1"], ["keys/alice/k2"]], none⟩ [[0], [0]] "b" "keys" "alice").written
      = (arrivalsAll ⟨""⟩ cxStore "b" (listingPath "keys" "alice")
          [["keys/alice/k1"], ["keys/alice/k2"]] [[0], [0]]).take 0 ∧
    (printAuthorizedKeys ⟨""⟩ cxStore (sinkAt 0)
      ⟨[["keys/alice/k1"], ["keys/alice/k2"]], none⟩ [[0], [0]] "b" "keys" "alice").receives
      = 0 + 1 ∧
    (printAuthorizedKeys ⟨""⟩ cxStore (sinkAt 0)
      ⟨[["keys/alice/k1"], ["keys/alice/k2"]], none⟩ [[0], [0]] "b" "keys" "alice").pagesProcessed
      = pageIndexAux (arrivalLens [["keys/alice/k1"], ["keys/alice/k2"]] [[0], [0]]) 0 + 1 :=
  ⟨by decide,
   C3_broken_pipe ⟨""⟩ cxStore "b" "keys" "alice" [["keys/alice/k1"], ["keys/alice/k2"]]
     none [[0], [0]] 0 (by decide)⟩

/-- C4: a store error on one key (service-level or transport-level) makes
`readAuthorizedKey` send the single empty record instead of propagating a
failure, every non-marker key of the page still gets its fetch launched,
and the drain loop still writes every record of the page. -/
theorem C4_store_error_isolated (cfg : Config) (store : Store)
    (bucket akPath key code msg : String) (page : List String) (idx : Nat)
    (h : store bucket key = FetchResult.storeError code msg ∨
         store bucket key = FetchResult.transportError msg) :
    readAuthorizedKey cfg store bucket key = [""] ∧
    fetchedKeys (launchPage akPath page) = page.filter (fun k => k ≠ akPath) ∧
    (drainPage allOk (pageRecords cfg store bucket akPath page) idx).1 =
      pageRecords cfg store bucket akPath page := by
  refine ⟨?_, fetchedKeys_launchPage akPath page, by rw [drainPage_allOk]⟩
  rcases h with h | h <;> simp [readAuthorizedKey, h]

theorem C4_store_error_isolated_witness :
    (errStore "b" "keys/alice/k1" = FetchResult.storeError "NoSuchKey" "key does not exist" ∨
     errStore "b" "keys/alice/k1" = FetchResult.transportError "key does not exist") ∧
    (readAuthorizedKey ⟨""⟩ errStore "b" "keys/alice/k1" = [""] ∧
     fetchedKeys (launchPage "keys/alice" ["keys/alice/k1", "keys/alice/k2"]) =
       (["keys/alice/k1", "keys/alice/k2"] : List String).filter
         (fun k => k ≠ "keys/alice") ∧
     (drainPage allOk
        (pageRecords ⟨""⟩ errStore "b" "keys/alice" ["keys/alice/k1", "keys/alice/k2"]) 0).1 =
       pageRecords ⟨""⟩ errStore "b" "keys/alice" ["keys/alice/k1", "keys/alice/k2"]) :=
  ⟨Or.inl rfl,
   C4_store_error_isolated ⟨""⟩ errStore "b" "keys/alice" "keys/alice/k1"
     "NoSuchKey" "key does not exist" ["keys/alice/k1", "keys/alice/k2"] 0 (Or.inl rfl)⟩

/-- C5: in the default configuration (no `-authlog`), a successful fetch
of body B emits B with exactly one newline appended when B does not end in
a newline, and B unchanged when it does; and the normalization is
idempotent. -/
theorem C5_newline_normalization (bucket key B : String) (e : Bool) :
    readAuthorizedKey ⟨""⟩ (fun _ _ => FetchResult.success B e) bucket key =
      [if B.data.getLast? = some '\n' then B else B ++ "\n"] ∧
    ensureNewline (ensureNewline B) = ensureNewline B := by
  constructor
  · simp [readAuthorizedKey, ensureNewline]
  · unfold ensureNewline
    by_cases h : B.data.getLast? = some '\n'
    · simp [h]
    · rw [if_neg h, if_pos (by rw [data_append]; exact List.getLast?_concat B.data)]

/-- C6: an object whose key equals the listing path contributes a marker
send (empty record) and no fetch; the fetched keys are exactly the
non-marker keys, the page's records are empty at marker positions, and the
emitted bytes equal the bytes of the non-marker records alone, so the
marker contributes nothing visible. -/
theorem C6_marker_skip (cfg : Config) (store : Store) (bucket akPath : String)
    (page : List String) :
    fetchedKeys (launchPage akPath page) = page.filter (fun k => k ≠ akPath) ∧
    pageRecords cfg store bucket akPath page =
      page.map (fun k => if k = akPath then "" else recordOf cfg store bucket k) ∧
    bytesOf (pageRecords cfg store bucket akPath page) =
      bytesOf ((page.filter (fun k => k ≠ akPath)).map (recordOf cfg store bucket)) :=
  ⟨fetchedKeys_launchPage akPath page,
   pageRecords_eq_map cfg store bucket akPath page,
   bytesOf_pageRecords cfg store bucket akPath page⟩

/-- C8: when the listing itself fails, the run is fatal: the store error
(with its code and message) is logged via `Fatalf`, the exit status is 1,
and the records written are exactly those of the pages delivered before
the failure. -/
theorem C8_listing_fatal (cfg : Config) (store : Store) (bucket keyArg user : String)
    (pages : List (List String)) (scheds : List (List Nat)) (e : StoreListError) :
    (printAuthorizedKeys cfg store allOk ⟨pages, some e⟩ scheds bucket keyArg user).fatal
      = some e ∧
    (printAuthorizedKeys cfg store allOk ⟨pages, some e⟩ scheds bucket keyArg user).exitCode
      = 1 ∧
    (printAuthorizedKeys cfg store allOk ⟨pages, some e⟩ scheds bucket keyArg user).written
      = arrivalsAll cfg store bucket (listingPath keyArg user) pages scheds ∧
    (printAuthorizedKeys cfg store allOk ⟨pages, some e⟩ scheds bucket keyArg user).pagesProcessed
      = pages.length := by
  simp only [printAuthorizedKeys]
  rw [runPagesAux_allOk]
  simp [RunResult.exitCode]

/-- C9: every fetched object contributes exactly one channel send on every
code path of `readAuthorizedKey`, every listed object (marker included)
contributes exactly one record, and when no write fails with broken pipe
the drain loop of a page of n listed objects performs exactly n receives
and completes, so the next page is requested only after n receives. -/
theorem C9_channel_sync (cfg : Config) (store : Store) (bucket key akPath : String)
    (page : List String) (sched : List Nat) (sink : Sink) (idx : Nat)
    (hsink : ∀ i, sink i ≠ WriteResult.brokenPipe)
    (hsched : sched.Perm (List.range page.length)) :
    (readAuthorizedKey cfg store bucket key).length = 1 ∧
    (pageRecords cfg store bucket akPath page).length = page.length ∧
    (drainPage sink (scheduleRecords (pageRecords cfg store bucket akPath page) sched) idx).2.1
      = idx + page.length ∧
    (drainPage sink (scheduleRecords (pageRecords cfg store bucket akPath page) sched) idx).2.2
      = true := by
  have hlen : (scheduleRecords (pageRecords cfg store bucket akPath page) sched).length
      = page.length := by
    simp [scheduleRecords, hsched.length_eq]
  obtain ⟨h1, h2⟩ := drainPage_noPipe sink hsink
    (scheduleRecords (pageRecords cfg store bucket akPath page) sched) idx
  exact ⟨readAuthorizedKey_length cfg store bucket key,
    pageRecords_length cfg store bucket akPath page, by rw [h1, hlen], h2⟩

theorem C9_channel_sync_witness :
    (∀ i, allOk i ≠ WriteResult.brokenPipe) ∧
    ([1, 0] : List Nat).Perm
      (List.range (["keys/alice/k1", "keys/alice/k2"] : List String).length) ∧
    ((readAuthorizedKey ⟨""⟩ cxStore "b" "keys/alice/k1").length = 1 ∧
     (pageRecords ⟨""⟩ cxStore "b" "keys/alice" ["keys/alice/k1", "keys/alice/k2"]).length
       = (["keys/alice/k1", "keys/alice/k2"] : List String).length ∧
     (drainPage allOk (scheduleRecords
        (pageRecords ⟨""⟩ cxStore "b" "keys/alice" ["keys/alice/k1", "keys/alice/k2"])
        [1, 0]) 0).2.1
       = 0 + (["keys/alice/k1", "keys/alice/k2"] : List String).length ∧
     (drainPage allOk (scheduleRecords
        (pageRecords ⟨""⟩ cxStore "b" "keys/alice" ["keys/alice/k1", "keys/alice/k2"])
        [1, 0]) 0).2.2 = true) :=
  ⟨fun _ h => WriteResult.noConfusion h, by decide,
   C9_channel_sync ⟨""⟩ cxStore "b" "keys/alice/k1" "keys/alice"
     ["keys/alice/k1", "keys/alice/k2"] [1, 0] allOk 0
     (fun _ h => WriteResult.noConfusion h) (by decide)⟩

/-- C10: when the get succeeds but the body read fails partway, the bytes
read before the failure are still emitted, newline-normalized, as the
object's single record (default configuration, no `-authlog`); the record
is never the empty record reserved for store errors. -/
theorem C10_partial_body_emitted (cfg : Config) (store : Store) (bucket key B : String)
    (hcfg : cfg.authlog = "")
    (h : store bucket key = FetchResult.success B true) :
    readAuthorizedKey cfg store bucket key = [ensureNewline B] ∧
    ensureNewline B ≠ "" := by
  constructor
  · simp [readAuthorizedKey, h, hcfg]
  · unfold ensureNewline
    by_cases hb : B.data.getLast? = some '\n'
    · rw [if_pos hb]
      intro hB
      rw [hB] at hb
      exact absurd hb (by decide)
    · rw [if_neg hb]
      intro hB
      have hd := congrArg String.data hB
      rw [data_append] at hd
      simp at hd

theorem C10_partial_body_emitted_witness :
    (⟨""⟩ : Config).authlog = "" ∧
    partialStore "b" "keys/alice/k1" = FetchResult.success "par" true ∧
    (readAuthorizedKey ⟨""⟩ partialStore "b" "keys/alice/k1" = [ensureNewline "par"] ∧
     ensureNewline "par" ≠ "") :=
  ⟨rfl, rfl,
   C10_partial_body_emitted ⟨""⟩ partialStore "b" "keys/alice/k1" "par" rfl rfl⟩

/-! ### Lemmas about the Go path functions -/

theorem splitSlash_ne_nil (l : List Char) : splitSlash l ≠ [] := by
  cases l with
  | nil => simp [splitSlash]
  | cons c cs =>
    simp only [splitSlash]
    cases h : splitSlash cs with
    | nil => simp
    | cons a t => by_cases hc : c = '/' <;> simp [hc]

theorem splitSlash_append (xs ys : List Char) :
    splitSlash (xs ++ '/' :: ys) = splitSlash xs ++ splitSlash ys := by
  induction xs with
  | nil =>
    simp only [List.nil_append, splitSlash]
    cases h : splitSlash ys with
    | nil => exact absurd h (splitSlash_ne_nil ys)
    | cons a t => simp
  | cons c cs ih =>
    rw [List.cons_append]
    show (match splitSlash (cs ++ '/' :: ys) with
          | [] => [[c]]
          | h :: t => if c = '/' then [] :: h :: t else (c :: h) :: t) =
        (match splitSlash cs with
          | [] => [[c]]
          | h :: t => if c = '/' then [] :: h :: t else (c :: h) :: t) ++ splitSlash ys
    rw [ih]
    cases h1 : splitSlash cs with
    | nil => exact absurd h1 (splitSlash_ne_nil cs)
    | cons a t =>
      cases h2 : splitSlash ys with
      | nil => exact absurd h2 (splitSlash_ne_nil ys)
      | cons b u =>
        by_cases hc : c = '/' <;> simp [hc]

theorem splitSlash_no_slash (l : List Char) (h : '/' ∉ l) : splitSlash l = [l] := by
  induction l with
  | nil => rfl
  | cons c cs ih =>
    have hc : ¬ c = '/' := fun e => h (by rw [e]; exact List.mem_cons_self '/' cs)
    have hcs : '/' ∉ cs := fun m => h (List.mem_cons_of_mem c m)
    simp only [splitSlash, ih hcs]
    rw [if_neg hc]

theorem joinSlash_splitSlash (l : List Char) : joinSlash (splitSlash l) = l := by
  induction l with
  | nil => rfl
  | cons c cs ih =>
    simp only [splitSlash]
    cases h : splitSlash cs with
    | nil => exact absurd h (splitSlash_ne_nil cs)
    | cons a t =>
      rw [h] at ih
      show joinSlash (if c = '/' then [] :: a :: t else (c :: a) :: t) = c :: cs
      by_cases hc : c = '/'
      · rw [if_pos hc]
        show [] ++ '/' :: joinSlash (a :: t) = c :: cs
        rw [ih, hc]
        rfl
      · rw [if_neg hc]
        cases t with
        | nil =>
          have h2 : a = cs := ih
          show c :: a = c :: cs
          rw [h2]
        | cons b u =>
          show (c :: a) ++ '/' :: joinSlash (b :: u) = c :: cs
          have h3 : a ++ '/' :: joinSlash (b :: u) = cs := ih
          rw [List.cons_append, h3]

theorem splitSlash_replicate (q : List Char) (k : Nat) :
    splitSlash (q ++ List.replicate k '/') =
      splitSlash q ++ List.replicate k ([] : List Char) := by
  induction k with
  | zero => simp
  | succ n ih =>
    rw [List.replicate_succ' n '/', ← List.append_assoc]
    have h1 : splitSlash ((q ++ List.replicate n '/') ++ '/' :: []) =
        splitSlash (q ++ List.replicate n '/') ++ splitSlash [] :=
      splitSlash_append (q ++ List.replicate n '/') []
    rw [h1, ih, List.replicate_succ' n ([] : List Char)]
    simp [splitSlash, List.append_assoc]

theorem joinSlash_concat (xs : List (List Char)) (w : List Char) (h : xs ≠ []) :
    joinSlash (xs ++ [w]) = joinSlash xs ++ '/' :: w := by
  induction xs with
  | nil => exact absurd rfl h
  | cons x xs ih =>
    cases xs with
    | nil => rfl
    | cons y ys =>
      show x ++ '/' :: joinSlash ((y :: ys) ++ [w]) = (x ++ '/' :: joinSlash (y :: ys)) ++ '/' :: w
      rw [ih (by simp)]
      simp [List.append_assoc]

theorem cleanCore_good (rooted : Bool) : ∀ cs : List (List Char),
    (∀ c ∈ cs, c = [] ∨ goodComp c) →
    ∀ acc, cleanCore rooted cs acc = acc.reverse ++ cs.filter (fun c => !c.isEmpty) := by
  intro cs
  induction cs with
  | nil => intro h acc; simp [cleanCore]
  | cons c cs ih =>
    intro h acc
    have hc := h c (List.mem_cons_self c cs)
    have hcs : ∀ x ∈ cs, x = [] ∨ goodComp x := fun x hx => h x (List.mem_cons_of_mem c hx)
    rcases hc with hc | hc
    · subst hc
      simp only [cleanCore, if_pos (Or.inl rfl)]
      rw [ih hcs acc]
      simp [List.filter_cons]
    · obtain ⟨h1, h2, h3⟩ := hc
      have hne : ¬ (c = [] ∨ c = ['.']) := by simp [h1, h2]
      simp only [cleanCore]
      rw [if_neg hne, if_neg h3, ih hcs (c :: acc)]
      have hemp : c.isEmpty = false := by
        cases c with
        | nil => exact absurd rfl h1
        | cons x xs => rfl
      simp [List.filter_cons, hemp]

theorem stripTrailing_decomp (l : List Char) :
    l = stripTrailing l ++ List.replicate ((l.reverse.takeWhile (· == '/')).length) '/' := by
  have h1 : l.reverse.takeWhile (· == '/') =
      List.replicate ((l.reverse.takeWhile (· == '/')).length) '/' := by
    apply List.eq_replicate_of_mem
    intro b hb
    have hbp := List.mem_takeWhile_imp hb
    simpa using hbp
  have h2 : l.reverse.takeWhile (· == '/') ++ l.reverse.dropWhile (· == '/') = l.reverse :=
    List.takeWhile_append_dropWhile (· == '/') l.reverse
  calc l = l.reverse.reverse := (List.reverse_reverse l).symm
    _ = (l.reverse.takeWhile (· == '/') ++ l.reverse.dropWhile (· == '/')).reverse := by
        rw [h2]
    _ = (l.reverse.dropWhile (· == '/')).reverse ++ (l.reverse.takeWhile (· == '/')).reverse := by
        rw [List.reverse_append]
    _ = stripTrailing l ++ List.replicate ((l.reverse.takeWhile (· == '/')).length) '/' := by
        unfold stripTrailing
        conv_lhs => rw [h1]
        rw [List.reverse_replicate]

/-- Go `path.Clean` is the identity on a clean relative path followed by
trailing slashes and a final clean component. -/
theorem cleanChars_eq (q w : List Char) (k : Nat)
    (hq : q ≠ [])
    (hqc : ∀ c ∈ splitSlash q, goodComp c)
    (hw : goodComp w) (hwslash : '/' ∉ w) :
    cleanChars ((q ++ List.replicate k '/') ++ '/' :: w) = q ++ '/' :: w := by
  obtain ⟨a, q', rfl⟩ : ∃ a q', q = a :: q' := by
    cases q with
    | nil => exact absurd rfl hq
    | cons a q' => exact ⟨a, q', rfl⟩
  have ha : ¬ a = '/' := by
    intro e
    subst e
    have hmem : ([] : List Char) ∈ splitSlash ('/' :: q') := by
      simp only [splitSlash]
      cases h : splitSlash q' with
      | nil => exact absurd h (splitSlash_ne_nil q')
      | cons x t => simp
    exact absurd rfl (hqc [] hmem).1
  have hL : (((a :: q') ++ List.replicate k '/') ++ '/' :: w) ≠ [] := by simp
  have hhead : (((a :: q') ++ List.replicate k '/') ++ '/' :: w).head? = some a := by
    simp [List.cons_append]
  have hrooted :
      ((((a :: q') ++ List.replicate k '/') ++ '/' :: w).head? == some '/') = false := by
    rw [hhead]
    simp [ha]
  have hsplit : splitSlash (((a :: q') ++ List.replicate k '/') ++ '/' :: w) =
      (splitSlash (a :: q') ++ List.replicate k ([] : List Char)) ++ [w] := by
    rw [splitSlash_append, splitSlash_replicate, splitSlash_no_slash w hwslash]
  have hallowed : ∀ c ∈ (splitSlash (a :: q') ++ List.replicate k ([] : List Char)) ++ [w],
      c = [] ∨ goodComp c := by
    intro c hc
    rcases List.mem_append.mp hc with hc | hc
    · rcases List.mem_append.mp hc with hc | hc
      · exact Or.inr (hqc c hc)
      · exact Or.inl (List.eq_of_mem_replicate hc)
    · have := List.mem_singleton.mp hc
      subst this
      exact Or.inr hw
  have hgoodsplit : ∀ c ∈ splitSlash (a :: q'), (!c.isEmpty) = true := by
    intro c hc
    have hne := (hqc c hc).1
    cases c with
    | nil => exact absurd rfl hne
    | cons x xs => rfl
  have hwemp : w.isEmpty = false := by
    cases w with
    | nil => exact absurd rfl hw.1
    | cons x xs => rfl
  have hclean :
      cleanCore false ((splitSlash (a :: q') ++ List.replicate k ([] : List Char)) ++ [w]) []
        = splitSlash (a :: q') ++ [w] := by
    rw [cleanCore_good false _ hallowed []]
    rw [List.reverse_nil, List.nil_append]
    rw [List.filter_append, List.filter_append]
    rw [List.filter_eq_self.mpr hgoodsplit]
    rw [List.filter_eq_nil_iff.mpr (fun x hx => by
      rw [List.eq_of_mem_replicate hx]
      simp)]
    simp [List.filter_cons, hwemp]
  unfold cleanChars
  rw [if_neg hL, hrooted, hsplit, hclean]
  rw [if_neg (by simp : ¬ (splitSlash (a :: q') ++ [w]) = [])]
  simp only [Bool.false_eq_true, if_false, List.nil_append]
  rw [joinSlash_concat _ w (splitSlash_ne_nil _), joinSlash_splitSlash]

theorem mk_append (a : List Char) (b : String) :
    (⟨a⟩ : String) ++ b = ⟨a ++ b.data⟩ := by
  cases b
  rfl

/-- C7, counterexample: the listing path is NOT `normalize(p) + "/" + u`
for every p and u, because the code computes `path.Join(p, u)`, which
also cleans interior components: for the prefix `./keys` and user `alice`
the code requests `keys/alice` while the claimed formula gives
`./keys/alice`. -/
theorem C7_counterexample :
    listingPath "./keys" "alice" ≠ specListingPath "./keys" "alice" := by
  decide

/-- C7, amended: the listing path is Go `path.Join(p, u)`; whenever p,
after dropping trailing slashes, is a nonempty path all of whose
slash-separated components are plain names (no empty, `.` or `..`
components) and u is a plain nonempty name, this equals
`normalize(p) + "/" + u` — in particular both `keys` and `keys/` with
user `alice` yield `keys/alice`.  For prefixes that `path.Clean` rewrites
(such as `""`, `.` or `./keys`) the two differ. -/
theorem C7_join_amended (p u : String)
    (hp : stripTrailing p.data ≠ [])
    (hpc : ∀ c ∈ splitSlash (stripTrailing p.data), goodComp c)
    (hu : goodComp u.data) (huslash : '/' ∉ u.data) :
    listingPath p u = specListingPath p u := by
  have hdec := stripTrailing_decomp p.data
  have hpne : ¬ p = "" := by
    intro e
    apply hp
    have hnil : p.data = [] := by rw [e]
    have h0 : stripTrailing p.data ++
        List.replicate ((p.data.reverse.takeWhile (· == '/')).length) '/' = [] := by
      rw [← hdec, hnil]
    exact (List.append_eq_nil.mp h0).1
  unfold listingPath goPathJoin
  rw [if_neg hpne]
  unfold goPathClean
  have hdata : (⟨p.data ++ '/' :: u.data⟩ : String).data = p.data ++ '/' :: u.data := rfl
  rw [hdata]
  conv_lhs => rw [hdec]
  rw [cleanChars_eq (stripTrailing p.data) u.data _ hp hpc hu huslash]
  unfold specListingPath specNormalize
  rw [mk_append, mk_append]
  have hslash : ((⟨['/']⟩ : String)).data = ['/'] := rfl
  apply congrArg String.mk
  show stripTrailing p.data ++ '/' :: u.data =
    (stripTrailing p.data ++ ("/" : String).data) ++ u.data
  simp

theorem C7_join_amended_witness :
    stripTrailing ("keys/" : String).data ≠ [] ∧
    (∀ c ∈ splitSlash (stripTrailing ("keys/" : String).data), goodComp c) ∧
    goodComp ("alice" : String).data ∧
    '/' ∉ ("alice" : String).data ∧
    listingPath "keys/" "alice" = specListingPath "keys/" "alice" :=
  ⟨by decide, by decide, by decide, by decide,
   C7_join_amended "keys/" "alice" (by decide) (by decide) (by decide) (by decide)⟩

end SSHAuth
